import Mathlib

/-!
Verification of the sway display-switcher (`src/main.rs`).

The program is embedded shallowly: strings are `List Char`, the interactive
prompt is driven by a script of pre-read input lines, and file-system effects
are recorded as an explicit event trace.  Rust's `str::trim` family uses
Unicode whitespace; here whitespace is modelled as the ASCII subset
(space, tab, newline, carriage return), which is what the relevant inputs use.
-/

/-- ASCII whitespace test (model of `char::is_whitespace` restricted to ASCII). -/
def isWsChar (c : Char) : Bool :=
  c == ' ' || c == '\t' || c == '\n' || c == '\r'

/-- Model of Rust `str::trim_start`. -/
def trimStartL (l : List Char) : List Char :=
  l.dropWhile isWsChar

/-- Model of Rust `str::trim_end`. -/
def trimEndL (l : List Char) : List Char :=
  (trimStartL l.reverse).reverse

/-- Model of Rust `str::trim`. -/
def trimL (l : List Char) : List Char :=
  trimStartL (trimEndL l)

/-- ASCII lowercasing of one character (model of `u8::to_ascii_lowercase`). -/
def asciiLower (c : Char) : Char :=
  if 'A' ≤ c && c ≤ 'Z' then Char.ofNat (c.toNat + 32) else c

/-- Model of Rust `str::eq_ignore_ascii_case`. -/
def eqIgnoreCase (a b : List Char) : Bool :=
  a.map asciiLower == b.map asciiLower

/-- Prefix test: `startsWithL p l` is true when `p` is a prefix of `l`
(model of Rust `str::starts_with`). -/
def startsWithL : List Char → List Char → Bool
  | [], _ => true
  | _ :: _, [] => false
  | p :: ps, c :: cs => c == p && startsWithL ps cs

/-- Substring test: `containsSub pat l` is true when `pat` occurs as a
contiguous substring of `l` (model of Rust `str::contains`). -/
def containsSub (pat : List Char) : List Char → Bool
  | [] => pat.isEmpty
  | c :: cs => startsWithL pat (c :: cs) || containsSub pat cs

/-- The literal `"# Description = "` from the header regular expression and the
re-serializer's `format!` string. -/
def hdrLit : List Char :=
  ['#', ' ', 'D', 'e', 's', 'c', 'r', 'i', 'p', 't', 'i', 'o', 'n', ' ', '=', ' ']

/-- The literal `", Status = "` shared by the header pattern and the
re-serializer. -/
def stLit : List Char :=
  [',', ' ', 'S', 't', 'a', 't', 'u', 's', ' ', '=', ' ']

/-- The literal `"Enabled"`. -/
def enabledLit : List Char := ['E', 'n', 'a', 'b', 'l', 'e', 'd']

/-- The literal `"Disabled"`. -/
def disabledLit : List Char := ['D', 'i', 's', 'a', 'b', 'l', 'e', 'd']

/-- The start-marker substring `"Display Start"`. -/
def dStartLit : List Char :=
  ['D', 'i', 's', 'p', 'l', 'a', 'y', ' ', 'S', 't', 'a', 'r', 't']

/-- The end-marker substring `"Display End"`. -/
def dEndLit : List Char :=
  ['D', 'i', 's', 'p', 'l', 'a', 'y', ' ', 'E', 'n', 'd']

/-- The quit command `"q"`. -/
def qLit : List Char := ['q']

/-- The literal `"# "` used when commenting out a directive. -/
def hashSpace : List Char := ['#', ' ']

/-- Rust struct `DisplayConfig` from `src/main.rs`. -/
structure DisplayConfig where
  description : List Char
  outputs : List (List Char)
  status : List Char
deriving DecidableEq

/-- Consume an exact literal from the front of a list. -/
def dropLit : List Char → List Char → Option (List Char)
  | [], r => some r
  | _ :: _, [] => none
  | p :: ps, c :: cs => if c = p then dropLit ps cs else none

/-- Try to match the regular expression
`# Description = ([^,]+), Status = ([^,]+)` anchored at the head of `l`,
returning the two captures.  Both `[^,]+` groups are greedy runs of non-comma
characters; since a group of non-commas followed by a literal comma can only
end at the first comma, the match (and its captures) at a given position is
unique, which this function computes directly. -/
def matchHeaderAt (l : List Char) : Option (List Char × List Char) :=
  match dropLit hdrLit l with
  | none => none
  | some r1 =>
    let d := r1.takeWhile (fun c => c != ',')
    let r2 := r1.dropWhile (fun c => c != ',')
    if d.isEmpty then none
    else
      match dropLit stLit r2 with
      | none => none
      | some r3 =>
        let s := r3.takeWhile (fun c => c != ',')
        if s.isEmpty then none else some (d, s)

/-- Unanchored search for the header pattern (model of `Regex::captures`):
try every start position from left to right. -/
def findHeader : List Char → Option (List Char × List Char)
  | [] => none
  | c :: cs =>
    match matchHeaderAt (c :: cs) with
    | some r => some r
    | none => findHeader cs

/-- Model of `line.trim_start_matches('#').trim_start()` from `parse_configs`. -/
def stripOutput (l : List Char) : List Char :=
  trimStartL (l.dropWhile (fun c => c == '#'))

/-- The accumulator loop of `parse_configs`: `cur` is `current_config`,
`acc` is `configs`. -/
def parseGo : Option DisplayConfig → List DisplayConfig → List (List Char) →
    List DisplayConfig
  | cur, acc, [] => acc ++ cur.toList
  | cur, acc, l :: ls =>
    match findHeader l with
    | some (d, s) =>
      parseGo (some { description := trimL d, outputs := [], status := trimL s })
        (acc ++ cur.toList) ls
    | none =>
      match cur with
      | some c =>
        let t := stripOutput l
        if t.isEmpty then parseGo (some c) acc ls
        else parseGo (some { c with outputs := c.outputs ++ [t] }) acc ls
      | none => parseGo none acc ls

/-- Function `parse_configs` from `src/main.rs`. -/
def parse_configs (lines : List (List Char)) : List DisplayConfig :=
  parseGo none [] lines

/-- One output line of the re-serializer loop in `main`: uncommented when the
record is enabled, otherwise normalized to a single `"# "` prefix via the
`starts_with` checks of the source. -/
def serializeOutputLine (st o : List Char) : List Char :=
  if eqIgnoreCase st enabledLit then o
  else if startsWithL hashSpace o then o
  else if startsWithL ['#'] o then hashSpace ++ stripOutput o
  else hashSpace ++ o

/-- The lines `main` emits for one record: the header line followed by its
output lines. -/
def serializeConfig (c : DisplayConfig) : List (List Char) :=
  (hdrLit ++ c.description ++ stLit ++ c.status) ::
    c.outputs.map (serializeOutputLine c.status)

/-- The `new_display_section` built by `main` (no blank separator lines). -/
def serializeSection (cs : List DisplayConfig) : List (List Char) :=
  (cs.map serializeConfig).flatten

/-- The status-update loop of `main`, carrying the running `enumerate` index. -/
def toggleGo (sel : Nat) : Nat → List DisplayConfig → List DisplayConfig
  | _, [] => []
  | i, c :: cs =>
    (if i = sel then { c with status := enabledLit }
     else { c with status := disabledLit }) :: toggleGo sel (i + 1) cs

/-- The toggle of `main`: the record at `sel` becomes `Enabled`, all others
`Disabled`. -/
def toggleConfigs (sel : Nat) (cs : List DisplayConfig) : List DisplayConfig :=
  toggleGo sel 0 cs

/-- The splice in `main`: `lines[..=display_start]`, then the new section,
then (guarded) `lines[display_end..]`. -/
def spliceLines (lines : List (List Char)) (ds de : Nat)
    (newSec : List (List Char)) : List (List Char) :=
  lines.take (ds + 1) ++ newSec ++ (if de < lines.length then lines.drop de else [])

/-- The slice `&lines[display_start..display_end]` handed to
`parse_configs`. -/
def displaySection (lines : List (List Char)) (ds de : Nat) : List (List Char) :=
  (lines.drop ds).take (de - ds)

/-- Model of `lines.iter().position(|line| line.contains(pat))`. -/
def findMarker (pat : List Char) : List (List Char) → Option Nat
  | [] => none
  | l :: ls =>
    if containsSub pat l then some 0 else (findMarker pat ls).map (· + 1)

/-- Result of the selection loop, relative to a finite script of input lines:
`selected i` models `return i`, `quit` models `process::exit(0)` on `q`, and
`exhausted` means the loop was still re-prompting when the script ran out. -/
inductive SelResult where
  | selected (i : Nat)
  | quit
  | exhausted
deriving DecidableEq

/-- Model of `str::parse::<usize>`: an optional leading `'+'`, then one or
more ASCII digits (overflow beyond `usize::MAX` is not modelled). -/
def parseUsize (l : List Char) : Option Nat :=
  let ds := match l with
    | '+' :: rest => rest
    | _ => l
  if ds.isEmpty || !ds.all (fun c => c.isDigit) then none
  else some (ds.foldl (fun n c => n * 10 + (c.toNat - 48)) 0)

/-- Function `get_user_selection` from `src/main.rs`, driven by a script of
already-read-and-unterminated input lines. -/
def get_user_selection (total : Nat) : List (List Char) → SelResult
  | [] => SelResult.exhausted
  | inp :: rest =>
    let trimmed := trimL inp
    if eqIgnoreCase trimmed qLit then SelResult.quit
    else
      match parseUsize trimmed with
      | some choice =>
        if 0 < choice ∧ choice ≤ total then SelResult.selected (choice - 1)
        else get_user_selection total rest
      | none => get_user_selection total rest

/-- File-system effects of a run, at the granularity relevant to atomicity:
creating the temp file, a chunk of bytes reaching the temp file's descriptor,
and the `fs::rename` of the temp path over the config path. -/
inductive FsEvent where
  | createTemp
  | writeData (data : List Char)
  | renameTemp
deriving DecidableEq

/-- Default capacity of `BufWriter` (8 KiB). -/
def bufCap : Nat := 8192

/-- One `write_all` against the `BufWriter`: data is buffered; the buffer is
flushed to the file only when the incoming data would overflow it, and
oversized writes bypass the buffer. -/
def bufPush : List Char × List FsEvent → List Char → List Char × List FsEvent
  | (buf, evs), data =>
    if bufCap < buf.length + data.length then
      let evs2 := if buf.isEmpty then evs else evs ++ [FsEvent.writeData buf]
      if bufCap ≤ data.length then ([], evs2 ++ [FsEvent.writeData data])
      else (data, evs2)
    else (buf ++ data, evs)

/-- The write phase of `main`: open/truncate the temp file, `writeln!` each
line through the `BufWriter`, then `fs::rename`.  The writer is dropped only
when `main` returns, so the buffer's remaining content is flushed *after* the
rename. -/
def writePhase (newLines : List (List Char)) : List FsEvent :=
  let st := newLines.foldl (fun st l => bufPush st (l ++ ['\n']))
    ([], [FsEvent.createTemp])
  st.2 ++ [FsEvent.renameTemp] ++
    (if st.1.isEmpty then [] else [FsEvent.writeData st.1])

/-- Terminal outcome of a run of `main`. -/
inductive MainOutcome where
  | fatalNoStart
  | fatalNoEnd
  | panicked
  | quitClean
  | stuck
  | finished (newLines : List (List Char))
deriving DecidableEq

/-- Function `main` from `src/main.rs` as a pure pipeline over the file's lines and
an input script: locate the markers (exiting non-zero when absent), slice the
section (Rust panics when the slice bounds are inverted), parse, select,
toggle, re-serialize, splice, and run the write phase. -/
def mainModel (lines : List (List Char)) (inputs : List (List Char)) :
    MainOutcome × List FsEvent :=
  match findMarker dStartLit lines with
  | none => (MainOutcome.fatalNoStart, [])
  | some ds =>
    match findMarker dEndLit lines with
    | none => (MainOutcome.fatalNoEnd, [])
    | some de =>
      if de < ds then (MainOutcome.panicked, [])
      else
        let cfgs := parse_configs (displaySection lines ds de)
        match get_user_selection cfgs.length inputs with
        | SelResult.quit => (MainOutcome.quitClean, [])
        | SelResult.exhausted => (MainOutcome.stuck, [])
        | SelResult.selected i =>
          let newLines := spliceLines lines ds de
            (serializeSection (toggleConfigs i cfgs))
          (MainOutcome.finished newLines, writePhase newLines)

/-! ### Helper lemmas -/

theorem dropWhile_length_le (p : Char → Bool) (l : List Char) :
    (l.dropWhile p).length ≤ l.length := by
  induction l with
  | nil => simp
  | cons c t ih =>
    rw [List.dropWhile_cons]
    by_cases h : p c
    · simp only [h, if_true]
      exact Nat.le_trans ih (Nat.le_succ _)
    · simp [h]

theorem dropLit_self (p r : List Char) :
    dropLit p (p ++ r) = some r := by
  induction p with
  | nil => rfl
  | cons c cs ih => simp [dropLit, ih]

theorem takeWhile_of_all (p : Char → Bool) (l r : List Char)
    (h : l.all p = true) : (l ++ r).takeWhile p = l ++ r.takeWhile p := by
  induction l with
  | nil => simp
  | cons c t ih =>
    simp only [List.all_cons, Bool.and_eq_true] at h
    simp [List.takeWhile_cons, h.1, ih h.2]

theorem dropWhile_of_all (p : Char → Bool) (l r : List Char)
    (h : l.all p = true) : (l ++ r).dropWhile p = r.dropWhile p := by
  induction l with
  | nil => simp
  | cons c t ih =>
    simp only [List.all_cons, Bool.and_eq_true] at h
    simp [List.dropWhile_cons, h.1, ih h.2]

theorem takeWhile_comma_free (d r : List Char)
    (h : d.all (fun c => c != ',') = true) :
    (d ++ ',' :: r).takeWhile (fun c => c != ',') = d := by
  rw [takeWhile_of_all _ _ _ h]
  simp [List.takeWhile_cons]

theorem dropWhile_comma_free (d r : List Char)
    (h : d.all (fun c => c != ',') = true) :
    (d ++ ',' :: r).dropWhile (fun c => c != ',') = ',' :: r := by
  rw [dropWhile_of_all _ _ _ h]
  simp [List.dropWhile_cons]

/-- The header pattern matches a serialized header line at position `0`, with
the description and status as its two captures. -/
theorem matchHeaderAt_serialized (d s : List Char) (hd : d ≠ [])
    (hdc : d.all (fun c => c != ',') = true) (hs : s ≠ [])
    (hsc : s.all (fun c => c != ',') = true) :
    matchHeaderAt (hdrLit ++ d ++ stLit ++ s) = some (d, s) := by
  have hsplit : hdrLit ++ d ++ stLit ++ s =
      hdrLit ++ (d ++ ',' :: ((stLit.drop 1) ++ s)) := by
    simp [stLit]
  rw [hsplit]
  unfold matchHeaderAt
  rw [dropLit_self]
  simp only
  rw [takeWhile_comma_free _ _ hdc, dropWhile_comma_free _ _ hdc]
  have hde : d.isEmpty = false := by
    cases d with
    | nil => exact absurd rfl hd
    | cons c t => rfl
  rw [hde]
  simp only [Bool.false_eq_true, if_false]
  have hst : (',' :: (stLit.drop 1 ++ s)) = stLit ++ s := by simp [stLit]
  rw [hst, dropLit_self]
  simp only
  have hts : s.takeWhile (fun c => c != ',') = s := by
    have := takeWhile_of_all (fun c => c != ',') s [] hsc
    simpa using this
  rw [hts]
  have hse : s.isEmpty = false := by
    cases s with
    | nil => exact absurd rfl hs
    | cons c t => rfl
  rw [hse]
  simp

/-- A match at position `0` is what the unanchored search returns. -/
theorem findHeader_of_match (l : List Char) (r : List Char × List Char)
    (h : matchHeaderAt l = some r) : findHeader l = some r := by
  cases l with
  | nil =>
    rw [show matchHeaderAt [] = none from rfl] at h
    cases h
  | cons c cs =>
    rw [findHeader, h]

/-- The unanchored search finds the match at position `0` of a serialized
header line. -/
theorem findHeader_serialized (d s : List Char) (hd : d ≠ [])
    (hdc : d.all (fun c => c != ',') = true) (hs : s ≠ [])
    (hsc : s.all (fun c => c != ',') = true) :
    findHeader (hdrLit ++ d ++ stLit ++ s) = some (d, s) :=
  findHeader_of_match _ _ (matchHeaderAt_serialized d s hd hdc hs hsc)

/-- A nonempty line fixed by `stripOutput` starts with neither `'#'` nor
whitespace. -/
theorem strip_fix_props (c : Char) (t : List Char)
    (h : stripOutput (c :: t) = c :: t) :
    (c == '#') = false ∧ isWsChar c = false := by
  have hts : ∀ l : List Char, (trimStartL l).length ≤ l.length :=
    fun l => dropWhile_length_le isWsChar l
  have hc : (c == '#') = false := by
    by_contra hcc
    rw [Bool.not_eq_false] at hcc
    have h1 : stripOutput (c :: t) =
        trimStartL (t.dropWhile (fun ch => ch == '#')) := by
      simp [stripOutput, List.dropWhile_cons, hcc]
    rw [h1] at h
    have h2 := hts (t.dropWhile (fun ch => ch == '#'))
    have h3 := dropWhile_length_le (fun ch => ch == '#') t
    rw [h] at h2
    simp only [List.length_cons] at h2
    omega
  refine ⟨hc, ?_⟩
  have h1 : stripOutput (c :: t) = trimStartL (c :: t) := by
    simp [stripOutput, List.dropWhile_cons, hc]
  rw [h1] at h
  by_contra hww
  rw [Bool.not_eq_false] at hww
  have h2 : trimStartL (c :: t) = trimStartL t := by
    simp [trimStartL, List.dropWhile_cons, hww]
  rw [h2] at h
  have h3 := hts t
  rw [h] at h3
  simp only [List.length_cons] at h3
  omega

/-- Re-stripping a line serialized with the `"# "` prefix recovers the stored
text. -/
theorem stripOutput_hashSpace (c : Char) (t : List Char)
    (h : stripOutput (c :: t) = c :: t) :
    stripOutput (hashSpace ++ (c :: t)) = c :: t := by
  obtain ⟨hc, hw⟩ := strip_fix_props c t h
  simp +decide [stripOutput, hashSpace, List.dropWhile_cons, hc, hw, trimStartL]

/-- On a disabled record, the serializer emits `"# "` followed by the stored
text whenever that text does not itself begin with `'#'`. -/
theorem serializeOutputLine_disabled (c : Char) (t : List Char)
    (hc : (c == '#') = false) :
    serializeOutputLine disabledLit (c :: t) = hashSpace ++ (c :: t) := by
  simp +decide [serializeOutputLine, startsWithL, hashSpace, hc]

/-- On an enabled record, the serializer emits the stored text unmodified. -/
theorem serializeOutputLine_enabled (o : List Char) :
    serializeOutputLine enabledLit o = o := by
  simp +decide [serializeOutputLine]

/-- Well-formedness of a stored output line as claimed for the round trip:
non-empty, already comment-stripped, and not matching the header pattern. -/
def wfOutputB (o : List Char) : Bool :=
  !o.isEmpty && (stripOutput o == o) && (findHeader o).isNone

/-- Strengthening of `wfOutputB` so that the line's disabled serialization
`"# " ++ o` does not match the header pattern either. -/
def wfOutputStrongB (o : List Char) : Bool :=
  wfOutputB o && (findHeader (hashSpace ++ o)).isNone

/-- Well-formedness of a record as claimed for the round trip: trimmed,
comma-free, non-empty description; canonical status; well-formed outputs. -/
def wfConfigB (c : DisplayConfig) : Bool :=
  !c.description.isEmpty && (trimL c.description == c.description) &&
    c.description.all (fun ch => ch != ',') &&
    ((c.status == enabledLit) || (c.status == disabledLit)) &&
    c.outputs.all wfOutputB

/-- Variant of `wfConfigB` with the strengthened output condition. -/
def wfConfigStrongB (c : DisplayConfig) : Bool :=
  !c.description.isEmpty && (trimL c.description == c.description) &&
    c.description.all (fun ch => ch != ',') &&
    ((c.status == enabledLit) || (c.status == disabledLit)) &&
    c.outputs.all wfOutputStrongB

theorem wfOutputStrongB_unpack (o : List Char) (h : wfOutputStrongB o = true) :
    o ≠ [] ∧ stripOutput o = o ∧ findHeader o = none ∧
      findHeader (hashSpace ++ o) = none := by
  simp only [wfOutputStrongB, wfOutputB, Bool.and_eq_true, Bool.not_eq_true',
    List.isEmpty_eq_false, beq_iff_eq, Option.isNone_iff_eq_none] at h
  exact ⟨h.1.1.1, h.1.1.2, h.1.2, h.2⟩

theorem wfConfigStrongB_unpack (c : DisplayConfig)
    (h : wfConfigStrongB c = true) :
    c.description ≠ [] ∧ trimL c.description = c.description ∧
      c.description.all (fun ch => ch != ',') = true ∧
      (c.status = enabledLit ∨ c.status = disabledLit) ∧
      ∀ o ∈ c.outputs, wfOutputStrongB o = true := by
  simp only [wfConfigStrongB, Bool.and_eq_true, Bool.not_eq_true',
    List.isEmpty_eq_false, beq_iff_eq, Bool.or_eq_true, List.all_eq_true] at h
  exact ⟨h.1.1.1.1, h.1.1.1.2, List.all_eq_true.mpr h.1.1.2, h.1.2, h.2⟩

/-- A serialized output line is never a header line and strips back to the
stored text, for both status values. -/
theorem serialized_body_line (s o : List Char)
    (hs : s = enabledLit ∨ s = disabledLit) (h : wfOutputStrongB o = true) :
    findHeader (serializeOutputLine s o) = none ∧
      stripOutput (serializeOutputLine s o) = o ∧ stripOutput (serializeOutputLine s o) ≠ [] := by
  obtain ⟨hne, hfix, hnh, hnh2⟩ := wfOutputStrongB_unpack o h
  cases o with
  | nil => exact absurd rfl hne
  | cons c t =>
    obtain ⟨hc, _⟩ := strip_fix_props c t hfix
    cases hs with
    | inl he =>
      rw [he, serializeOutputLine_enabled]
      exact ⟨hnh, hfix, by rw [hfix]; exact hne⟩
    | inr hd =>
      rw [hd, serializeOutputLine_disabled c t hc]
      refine ⟨hnh2, stripOutput_hashSpace c t hfix, ?_⟩
      rw [stripOutput_hashSpace c t hfix]
      exact hne

/-- One non-header body line appends its stripped text to the active
accumulator. -/
theorem parseGo_output_step (c : DisplayConfig) (acc : List DisplayConfig)
    (l : List Char) (ls : List (List Char)) (hh : findHeader l = none)
    (ht : stripOutput l ≠ []) :
    parseGo (some c) acc (l :: ls) =
      parseGo (some { c with outputs := c.outputs ++ [stripOutput l] }) acc ls := by
  have hie : (stripOutput l).isEmpty = false := by
    cases hsl : stripOutput l with
    | nil => exact absurd hsl ht
    | cons a b => rfl
  simp [parseGo, hh, hie]

/-- Parsing the serialized body of a record folds all its outputs back into
the accumulator. -/
theorem parseGo_body (s : List Char) (hs : s = enabledLit ∨ s = disabledLit) :
    ∀ (os : List (List Char)), (∀ o ∈ os, wfOutputStrongB o = true) →
    ∀ (c : DisplayConfig) (acc : List DisplayConfig) (rest : List (List Char)),
      parseGo (some c) acc (os.map (serializeOutputLine s) ++ rest) =
        parseGo (some { c with outputs := c.outputs ++ os }) acc rest := by
  intro os
  induction os with
  | nil =>
    intro _ c acc rest
    simp
  | cons o os' ih =>
    intro hwf c acc rest
    have hwfo : wfOutputStrongB o = true := hwf o (List.mem_cons_self o os')
    have hwf' : ∀ x ∈ os', wfOutputStrongB x = true :=
      fun x hx => hwf x (List.mem_cons_of_mem o hx)
    obtain ⟨hnh, hstrip, hne⟩ := serialized_body_line s o hs hwfo
    simp only [List.map_cons, List.cons_append]
    rw [parseGo_output_step _ _ _ _ hnh hne, hstrip, ih hwf']
    simp [List.append_assoc]

/-- Status-literal facts used when re-parsing a serialized header. -/
theorem status_lit_facts (s : List Char)
    (hs : s = enabledLit ∨ s = disabledLit) :
    s ≠ [] ∧ s.all (fun ch => ch != ',') = true ∧ trimL s = s := by
  cases hs with
  | inl h => rw [h]; refine ⟨by decide, by decide, by decide⟩
  | inr h => rw [h]; refine ⟨by decide, by decide, by decide⟩

/-- Running the block parser over a serialized record sequence, from any
accumulator state, appends exactly those records. -/
theorem parseGo_serializeSection :
    ∀ (cs : List DisplayConfig), (∀ c ∈ cs, wfConfigStrongB c = true) →
    ∀ (cur : Option DisplayConfig) (acc : List DisplayConfig),
      parseGo cur acc (serializeSection cs) = acc ++ cur.toList ++ cs := by
  intro cs
  induction cs with
  | nil =>
    intro _ cur acc
    simp [serializeSection, parseGo]
  | cons c cs' ih =>
    intro hwf cur acc
    have hwfc : wfConfigStrongB c = true := hwf c (List.mem_cons_self c cs')
    have hwf' : ∀ x ∈ cs', wfConfigStrongB x = true :=
      fun x hx => hwf x (List.mem_cons_of_mem c hx)
    obtain ⟨hdne, hdtrim, hdcomma, hst, hout⟩ := wfConfigStrongB_unpack c hwfc
    obtain ⟨hsne, hscomma, hstrim⟩ := status_lit_facts c.status hst
    have hsec : serializeSection (c :: cs') =
        (hdrLit ++ c.description ++ stLit ++ c.status) ::
          (c.outputs.map (serializeOutputLine c.status) ++ serializeSection cs') := by
      simp [serializeSection, serializeConfig]
    rw [hsec]
    have hfh := findHeader_serialized c.description c.status hdne hdcomma hsne hscomma
    simp only [parseGo, hfh]
    rw [hdtrim, hstrim]
    rw [parseGo_body c.status hst c.outputs hout _ _ _]
    show parseGo (some c) (acc ++ cur.toList) (serializeSection cs') =
      acc ++ cur.toList ++ c :: cs'
    rw [ih hwf']
    simp

/-- The record used to refute the round-trip claim as stated: well-formed per
the claim, but its single output re-serializes (disabled) to
`"# Description = B, Status = C"`, which the parser then reads as a header. -/
def cexRoundtripRec : DisplayConfig :=
  DisplayConfig.mk ['A'] [hdrLit.drop 2 ++ ['B'] ++ stLit ++ ['C']] disabledLit

/-- C1.  Round-trip idempotence as stated is false: `cexRoundtripRec`
satisfies every well-formedness condition the claim lists (trimmed comma-free
non-empty description, canonical status, non-empty comment-stripped output not
matching the header pattern), yet serializing and re-parsing does not return
the record: the disabled output gains a `"# "` prefix, becomes a header line,
and splits into a second record. -/
theorem roundtrip_counterexample :
    wfConfigB cexRoundtripRec = true ∧
      parse_configs (serializeSection [cexRoundtripRec]) =
        [DisplayConfig.mk ['A'] [] disabledLit,
         DisplayConfig.mk ['B'] [] ['C']] ∧
      decide (parse_configs (serializeSection [cexRoundtripRec]) =
        [cexRoundtripRec]) = false := by
  refine ⟨by decide, by decide, by decide⟩

/-- C1 (amended).  Round-trip idempotence holds for every sequence of
well-formed records once the claim's output condition is strengthened to also
require that the comment-prefixed form `"# " ++ output` does not match the
header pattern: re-parsing the re-serialized section yields exactly the
records that produced it. -/
theorem roundtrip_amended (cs : List DisplayConfig)
    (h : ∀ c ∈ cs, wfConfigStrongB c = true) :
    parse_configs (serializeSection cs) = cs := by
  rw [parse_configs, parseGo_serializeSection cs h none []]
  rfl

/-- Witness for `roundtrip_amended` on a concrete two-record sequence. -/
theorem roundtrip_amended_witness :
    parse_configs (serializeSection
      [DisplayConfig.mk ['A'] [['o', 'u', 't', ' ', 'X']] enabledLit,
       DisplayConfig.mk ['B'] [['o', 'u', 't', ' ', 'Y']] disabledLit]) =
      [DisplayConfig.mk ['A'] [['o', 'u', 't', ' ', 'X']] enabledLit,
       DisplayConfig.mk ['B'] [['o', 'u', 't', ' ', 'Y']] disabledLit] :=
  roundtrip_amended _ (by decide)

/-- Default record for `getD` indexing. -/
def dfltConfig : DisplayConfig := DisplayConfig.mk [] [] []

theorem toggleGo_length (sel : Nat) :
    ∀ (cs : List DisplayConfig) (k : Nat), (toggleGo sel k cs).length = cs.length := by
  intro cs
  induction cs with
  | nil => intro k; rfl
  | cons c t ih => intro k; simp [toggleGo, ih]

theorem toggleGo_getD (sel : Nat) :
    ∀ (cs : List DisplayConfig) (k j : Nat), j < cs.length →
      (toggleGo sel k cs).getD j dfltConfig =
        (if k + j = sel then { cs.getD j dfltConfig with status := enabledLit }
         else { cs.getD j dfltConfig with status := disabledLit }) := by
  intro cs
  induction cs with
  | nil => intro k j h; simp at h
  | cons c t ih =>
    intro k j h
    cases j with
    | zero => simp [toggleGo]
    | succ j' =>
      simp only [List.length_cons, Nat.succ_lt_succ_iff] at h
      have := ih (k + 1) j' h
      simp only [toggleGo, List.getD_cons_succ]
      rw [this]
      have harith : k + 1 + j' = k + (j' + 1) := by omega
      rw [harith]

/-- C2.  Toggle postcondition: after the toggle targeting an in-range index
`sel`, the record count is unchanged; the record at `sel` is `Enabled`; a
record is `Enabled` exactly when its index is `sel` and is `Disabled`
otherwise; and every record keeps its description and its outputs (content
and order). -/
theorem toggle_contract (cs : List DisplayConfig) (sel : Nat)
    (hsel : sel < cs.length) :
    (toggleConfigs sel cs).length = cs.length ∧
    ((toggleConfigs sel cs).getD sel dfltConfig).status = enabledLit ∧
    ∀ j, j < cs.length →
      (((toggleConfigs sel cs).getD j dfltConfig).status = enabledLit ↔ j = sel) ∧
      (j ≠ sel → ((toggleConfigs sel cs).getD j dfltConfig).status = disabledLit) ∧
      ((toggleConfigs sel cs).getD j dfltConfig).description =
        (cs.getD j dfltConfig).description ∧
      ((toggleConfigs sel cs).getD j dfltConfig).outputs =
        (cs.getD j dfltConfig).outputs := by
  have hget : ∀ j, j < cs.length →
      (toggleConfigs sel cs).getD j dfltConfig =
        (if j = sel then { cs.getD j dfltConfig with status := enabledLit }
         else { cs.getD j dfltConfig with status := disabledLit }) := by
    intro j hj
    have := toggleGo_getD sel cs 0 j hj
    simpa using this
  refine ⟨toggleGo_length sel cs 0, ?_, ?_⟩
  · rw [hget sel hsel]
    simp
  · intro j hj
    rw [hget j hj]
    by_cases hjs : j = sel
    · simp [hjs]
    · simp +decide [hjs]

/-- Witness for `toggle_contract` on a concrete two-record sequence. -/
theorem toggle_contract_witness :
    ((toggleConfigs 1 [DisplayConfig.mk ['A'] [['x']] enabledLit,
        DisplayConfig.mk ['B'] [['y']] disabledLit]).getD 1 dfltConfig).status =
      enabledLit :=
  (toggle_contract [DisplayConfig.mk ['A'] [['x']] enabledLit,
    DisplayConfig.mk ['B'] [['y']] disabledLit] 1 (by decide)).2.1

/-- The stored output line `"#foo"`, reachable by parsing the input line
`"# #foo"` under a disabled header. -/
def hashFooLine : List Char := ['#', 'f', 'o', 'o']

/-- C4.  Comment normalization as stated is false: the parser can store an
output line that still begins with `'#'` (input `"# #foo"` strips to
`"#foo"`), and for such a stored line the disabled serialization is
`"# foo"`, not `"# "` followed by the stored text. -/
theorem normalize_counterexample :
    parse_configs [hdrLit ++ ['A'] ++ stLit ++ disabledLit,
        ['#', ' ', '#', 'f', 'o', 'o']] =
      [DisplayConfig.mk ['A'] [hashFooLine] disabledLit] ∧
    serializeOutputLine disabledLit hashFooLine = hashSpace ++ ['f', 'o', 'o'] ∧
    decide (serializeOutputLine disabledLit hashFooLine =
      hashSpace ++ hashFooLine) = false := by
  refine ⟨by decide, by decide, by decide⟩

/-- C4 (amended).  For a disabled record, every stored output line that does
not itself begin with `'#'` is emitted as exactly `"# "` followed by the
stored text; for an enabled record every stored output line is emitted
unmodified. -/
theorem normalize_amended (c : Char) (t : List Char) (o : List Char)
    (hc : (c == '#') = false) :
    serializeOutputLine disabledLit (c :: t) = hashSpace ++ (c :: t) ∧
    serializeOutputLine enabledLit o = o :=
  ⟨serializeOutputLine_disabled c t hc, serializeOutputLine_enabled o⟩

/-- Witness for `normalize_amended` on a concrete output line. -/
theorem normalize_amended_witness :
    serializeOutputLine disabledLit ['o', 'u', 't'] = hashSpace ++ ['o', 'u', 't'] ∧
    serializeOutputLine enabledLit ['o', 'u', 't'] = ['o', 'u', 't'] :=
  normalize_amended 'o' ['u', 't'] ['o', 'u', 't'] (by decide)

/-- C5.  Splicer frame property: with both marker indices in range, the
rewritten file is exactly the lines up to and including the start marker,
then the new section, then the lines from the end marker onward; in
particular the prefix through the start marker is copied verbatim and the
suffix from the end marker onward is copied verbatim. -/
theorem splice_frame (lines newSec : List (List Char)) (ds de : Nat)
    (h1 : ds < lines.length) (h2 : de < lines.length) :
    spliceLines lines ds de newSec =
      lines.take (ds + 1) ++ newSec ++ lines.drop de ∧
    (spliceLines lines ds de newSec).take (ds + 1) = lines.take (ds + 1) ∧
    (spliceLines lines ds de newSec).drop (ds + 1 + newSec.length) =
      lines.drop de := by
  have heq : spliceLines lines ds de newSec =
      lines.take (ds + 1) ++ newSec ++ lines.drop de := by
    simp [spliceLines, h2]
  have hlen : (lines.take (ds + 1)).length = ds + 1 := by
    rw [List.length_take]
    omega
  refine ⟨heq, ?_, ?_⟩
  · rw [heq, List.append_assoc, List.take_left' hlen]
  · rw [heq, List.drop_left' ?hl]
    case hl => simp [hlen]

/-- Witness for `splice_frame` on a concrete three-line file. -/
theorem splice_frame_witness :
    spliceLines [['a'], ['b'], ['c']] 0 2 [['n']] =
      List.take 1 [['a'], ['b'], ['c']] ++ [['n']] ++
        List.drop 2 [['a'], ['b'], ['c']] :=
  (splice_frame [['a'], ['b'], ['c']] [['n']] 0 2 (by decide) (by decide)).1

/-- Any index returned by the selection loop is in range and stems from a
scripted input that parses to that index plus one. -/
theorem get_user_selection_sound (n : Nat) :
    ∀ (inputs : List (List Char)) (i : Nat),
      get_user_selection n inputs = SelResult.selected i →
      i < n ∧ ∃ inp, inp ∈ inputs ∧ parseUsize (trimL inp) = some (i + 1) := by
  intro inputs
  induction inputs with
  | nil =>
    intro i h
    cases h
  | cons inp rest ih =>
    intro i h
    by_cases hq : eqIgnoreCase (trimL inp) qLit = true
    · simp [get_user_selection, hq] at h
    · cases hp : parseUsize (trimL inp) with
      | none =>
        simp only [get_user_selection, hq, Bool.false_eq_true, if_false, hp] at h
        obtain ⟨hlt, inp', hmem, hpu⟩ := ih i h
        exact ⟨hlt, inp', List.mem_cons_of_mem inp hmem, hpu⟩
      | some choice =>
        simp only [get_user_selection, hq, Bool.false_eq_true, if_false, hp] at h
        by_cases hr : 0 < choice ∧ choice ≤ n
        · rw [if_pos hr] at h
          cases h
          refine ⟨by omega, inp, List.mem_cons_self inp rest, ?_⟩
          rw [hp]
          have : choice - 1 + 1 = choice := by omega
          rw [this]
        · rw [if_neg hr] at h
          obtain ⟨hlt, inp', hmem, hpu⟩ := ih i h
          exact ⟨hlt, inp', List.mem_cons_of_mem inp hmem, hpu⟩

/-- If a run of `main` ends in the quit path, its file-event trace is empty. -/
theorem mainModel_quit_events (lines inputs : List (List Char))
    (h : (mainModel lines inputs).1 = MainOutcome.quitClean) :
    (mainModel lines inputs).2 = [] := by
  unfold mainModel at h ⊢
  cases hds : findMarker dStartLit lines with
  | none => simp [hds]
  | some ds =>
    cases hde : findMarker dEndLit lines with
    | none => simp [hds, hde]
    | some de =>
      simp only [hds, hde] at h ⊢
      by_cases hlt : de < ds
      · simp [hlt]
      · simp only [hlt, if_false] at h ⊢
        cases hsel : get_user_selection
            (parse_configs (displaySection lines ds de)).length inputs with
        | quit => simp [hsel]
        | exhausted => simp [hsel] at h
        | selected i => simp [hsel] at h

/-- C8.  Selector contract: every returned value is a 0-based index below the
record count, obtained as `choice - 1` from a scripted input that parses to a
`choice` with `1 ≤ choice ≤ n`; an input equal to `q` (case-insensitive,
after trimming) exits the loop via the quit path; non-numeric and
out-of-range inputs re-prompt (the loop continues on the remaining script);
and a run of `main` that ends in the quit path performs no file mutation at
all (its file-event trace is empty). -/
theorem selector_contract (n : Nat) :
    (∀ (inputs : List (List Char)) (i : Nat),
        get_user_selection n inputs = SelResult.selected i →
        i < n ∧ ∃ inp, inp ∈ inputs ∧ parseUsize (trimL inp) = some (i + 1)) ∧
    (∀ (inp : List Char) (rest : List (List Char)),
        eqIgnoreCase (trimL inp) qLit = true →
        get_user_selection n (inp :: rest) = SelResult.quit) ∧
    (∀ (inp : List Char) (rest : List (List Char)),
        eqIgnoreCase (trimL inp) qLit = false →
        parseUsize (trimL inp) = none →
        get_user_selection n (inp :: rest) = get_user_selection n rest) ∧
    (∀ (inp : List Char) (rest : List (List Char)) (choice : Nat),
        eqIgnoreCase (trimL inp) qLit = false →
        parseUsize (trimL inp) = some choice →
        ¬(0 < choice ∧ choice ≤ n) →
        get_user_selection n (inp :: rest) = get_user_selection n rest) ∧
    (∀ (lines inputs : List (List Char)),
        (mainModel lines inputs).1 = MainOutcome.quitClean →
        (mainModel lines inputs).2 = []) := by
  refine ⟨get_user_selection_sound n, ?_, ?_, ?_, mainModel_quit_events⟩
  · intro inp rest hq
    simp [get_user_selection, hq]
  · intro inp rest hq hp
    simp [get_user_selection, hq, hp]
  · intro inp rest choice hq hp hr
    simp [get_user_selection, hq, hp, hr]

/-- A concrete config file with both markers and one disabled record. -/
def exLines : List (List Char) :=
  [dStartLit, hdrLit ++ ['A'] ++ stLit ++ disabledLit, ['o', 'u', 't'], dEndLit]

/-- Witness for `selector_contract`: each conjunct exercised at concrete
inputs. -/
theorem selector_contract_witness :
    (1 < 3 ∧ ∃ inp, inp ∈ [['2']] ∧ parseUsize (trimL inp) = some 2) ∧
    get_user_selection 3 [['q'], ['1']] = SelResult.quit ∧
    get_user_selection 3 [['x'], ['2']] = get_user_selection 3 [['2']] ∧
    get_user_selection 3 [['9'], ['2']] = get_user_selection 3 [['2']] ∧
    (mainModel exLines [['q']]).2 = [] := by
  refine ⟨(selector_contract 3).1 [['2']] 1 (by decide),
    (selector_contract 3).2.1 ['q'] [['1']] (by decide),
    (selector_contract 3).2.2.1 ['x'] [['2']] (by decide) (by decide),
    (selector_contract 3).2.2.2.1 ['9'] [['2']] 9 (by decide) (by decide)
      (by decide),
    (selector_contract 3).2.2.2.2 exLines [['q']] (by decide)⟩

/-- C10.  With zero records, no numeric input can pass the range check
`0 < choice ∧ choice ≤ 0`, so the selection loop never returns an index: for
every input script it either exits via the quit path or is still re-prompting
when the script runs out, and the toggle/write path is unreachable. -/
theorem empty_selection_never_returns (inputs : List (List Char)) :
    get_user_selection 0 inputs = SelResult.quit ∨
      get_user_selection 0 inputs = SelResult.exhausted := by
  induction inputs with
  | nil => exact Or.inr rfl
  | cons inp rest ih =>
    by_cases hq : eqIgnoreCase (trimL inp) qLit = true
    · left
      simp [get_user_selection, hq]
    · cases hp : parseUsize (trimL inp) with
      | none => simpa [get_user_selection, hq, hp] using ih
      | some c =>
        have hnc : ¬(0 < c ∧ c = 0) := by omega
        simpa [get_user_selection, hq, hp, hnc] using ih

/-- Witness for `empty_selection_never_returns` on a concrete script. -/
theorem empty_selection_never_returns_witness :
    get_user_selection 0 [['1'], ['q']] = SelResult.quit ∨
      get_user_selection 0 [['1'], ['q']] = SelResult.exhausted :=
  empty_selection_never_returns [['1'], ['q']]

/-- C9.  `MarkerNotFound` is fatal and pre-write: when either marker is
absent from the file, the run ends in the corresponding fatal outcome
(`process::exit(1)` after the diagnostic) and the file-event trace is empty,
so the config file is untouched. -/
theorem marker_missing_fatal (lines inputs : List (List Char))
    (h : findMarker dStartLit lines = none ∨ findMarker dEndLit lines = none) :
    ((mainModel lines inputs).1 = MainOutcome.fatalNoStart ∨
      (mainModel lines inputs).1 = MainOutcome.fatalNoEnd) ∧
    (mainModel lines inputs).2 = [] := by
  unfold mainModel
  cases hds : findMarker dStartLit lines with
  | none => simp
  | some ds =>
    cases hde : findMarker dEndLit lines with
    | none => simp
    | some de =>
      rcases h with h1 | h2
      · rw [hds] at h1
        cases h1
      · rw [hde] at h2
        cases h2

/-- Witness for `marker_missing_fatal` on a file with no markers. -/
theorem marker_missing_fatal_witness :
    ((mainModel [['h', 'i']] []).1 = MainOutcome.fatalNoStart ∨
      (mainModel [['h', 'i']] []).1 = MainOutcome.fatalNoEnd) ∧
    (mainModel [['h', 'i']] []).2 = [] :=
  marker_missing_fatal [['h', 'i']] [] (Or.inl (by decide))

/-- A file whose end-marker line precedes its start-marker line. -/
def invLines : List (List Char) := [dEndLit, dStartLit]

/-- C6.  The inverted-marker guard as claimed is false: on a file where the
end marker precedes the start marker the run ends in `panicked` — the Rust
slice expression `&lines[display_start..display_end]` panics on its inverted
bounds — and not in either marker-error outcome; no file write occurs, but no
`MarkerNotFound`/`InvertedMarkers` diagnostic is produced. -/
theorem inverted_markers_counterexample :
    (mainModel invLines []).1 = MainOutcome.panicked ∧
    (mainModel invLines []).2 = [] ∧
    decide ((mainModel invLines []).1 = MainOutcome.fatalNoStart ∨
      (mainModel invLines []).1 = MainOutcome.fatalNoEnd) = false := by
  refine ⟨by decide, by decide, by decide⟩

/-- C6 (amended).  When both markers are present but the first end-marker
line precedes the first start-marker line, the program aborts by panicking on
the inverted slice bounds before any file write occurs (empty event trace);
it does not report a `MarkerNotFound` or `InvertedMarkers` error. -/
theorem inverted_markers_amended (lines inputs : List (List Char)) (ds de : Nat)
    (h1 : findMarker dStartLit lines = some ds)
    (h2 : findMarker dEndLit lines = some de) (h3 : de < ds) :
    mainModel lines inputs = (MainOutcome.panicked, []) := by
  unfold mainModel
  rw [h1, h2]
  simp [h3]

/-- Witness for `inverted_markers_amended` on `invLines`. -/
theorem inverted_markers_amended_witness :
    mainModel invLines [] = (MainOutcome.panicked, []) :=
  inverted_markers_amended invLines [] 1 0 (by decide) (by decide) (by decide)

/-- A file whose start-marker line itself matches the header pattern:
`"# Description = Display Start, Status = Enabled"`. -/
def trickLines : List (List Char) :=
  [hdrLit ++ dStartLit ++ stLit ++ enabledLit, ['x'], dEndLit]

/-- C7.  Marker exclusion as claimed is false: the parser receives
`lines[display_start..display_end]`, which includes the start-marker line,
and on `trickLines` that line matches the header pattern, so the marker
line's text becomes a record's description and status — parsing the actual
slice differs from parsing the lines strictly between the markers. -/
theorem marker_exclusion_counterexample :
    findMarker dStartLit trickLines = some 0 ∧
    findMarker dEndLit trickLines = some 2 ∧
    parse_configs (displaySection trickLines 0 2) =
      [DisplayConfig.mk dStartLit [['x']] enabledLit] ∧
    parse_configs (displaySection trickLines 1 2) = [] ∧
    decide (parse_configs (displaySection trickLines 0 2) =
      parse_configs (displaySection trickLines 1 2)) = false := by
  refine ⟨by decide, by decide, by decide, by decide, by decide⟩

theorem drop_getD_cons (lines : List (List Char)) (n : Nat)
    (h : n < lines.length) :
    lines.drop n = lines.getD n [] :: lines.drop (n + 1) := by
  rw [List.getD_eq_getElem lines [] h]
  exact List.drop_eq_getElem_cons h

/-- A non-header line with no active accumulator is ignored by the parser. -/
theorem parseGo_skip_nonheader (m : List Char) (X : List (List Char))
    (hm : findHeader m = none) :
    parseGo none [] (m :: X) = parseGo none [] X := by
  simp [parseGo, hm]

/-- C7 (amended).  The parser's slice runs from the start-marker line
(inclusive) to the end-marker line (exclusive); whenever the start-marker
line does not itself match the header pattern, parsing it is equivalent to
parsing only the lines strictly between the markers, so no marker-line
content enters any record. -/
theorem marker_exclusion_amended (lines : List (List Char)) (ds de : Nat)
    (h1 : ds < de) (h2 : ds < lines.length)
    (h3 : findHeader (lines.getD ds []) = none) :
    parse_configs (displaySection lines ds de) =
      parse_configs (displaySection lines (ds + 1) de) := by
  unfold displaySection
  rw [drop_getD_cons lines ds h2]
  have hk : de - ds = (de - (ds + 1)) + 1 := by omega
  rw [hk, List.take_succ_cons]
  exact parseGo_skip_nonheader _ _ h3

/-- Witness for `marker_exclusion_amended` on `exLines`. -/
theorem marker_exclusion_amended_witness :
    parse_configs (displaySection exLines 0 3) =
      parse_configs (displaySection exLines 1 3) :=
  marker_exclusion_amended exLines 0 3 (by decide) (by decide) (by decide)

/-- Is this event a data write? -/
def isWriteData : FsEvent → Bool
  | FsEvent.writeData _ => true
  | _ => false

/-- The events preceding the rename. -/
def beforeRename (evs : List FsEvent) : List FsEvent :=
  evs.takeWhile (fun e => !(e == FsEvent.renameTemp))

/-- The events following the rename. -/
def afterRename (evs : List FsEvent) : List FsEvent :=
  (evs.dropWhile (fun e => !(e == FsEvent.renameTemp))).drop 1

/-- C3.  Atomic replacement is violated by the code: on the concrete file
`exLines` with selection `1`, not a single byte reaches the temp file before
`fs::rename` (the `BufWriter` is never flushed before the rename), and file
data is written only after the rename — the buffered content is flushed when
the writer is dropped at the end of `main`, landing in the live config path.
A crash between the rename and that flush leaves a truncated live config. -/
theorem buffered_write_after_rename :
    (beforeRename (mainModel exLines [['1']]).2).any isWriteData = false ∧
    (afterRename (mainModel exLines [['1']]).2).any isWriteData = true := by
  refine ⟨by decide, by decide⟩
